import Mathlib

/-!
# helper.cpp : tokenizer, stack walker and scoped call tracer

A shallow embedding of `src/helper.cpp`.

* `std::string` is `List Char`; `std::vector<T>` is `List T`.
* `string::npos` is `none` in `Option Nat`: every index the code compares with it is at most
  `s.size() + 1`, which is below `npos`.
* `int` values are `Int`; `uint64_t` values are `Nat` below `2 ^ 64`.  Narrowing conversions
  are written out (`to_int`, `to_uint64`); signed overflow is undefined behaviour.  It can
  occur in `up + 1` of `caller_frame_addr` and `caller_frame` only: the other `int`
  operations work on the count returned by `backtrace`, which lies between 0 and `nframe`.
* The platform and C library (`backtrace`, `backtrace_symbols`, `__cxa_demangle`, `strtol`,
  `strtoll`, the `printf` conversions) are the fields of a `Platform` argument.
* A computation ends in an `Outcome`: a value, `abort()`, a thrown exception or undefined
  behaviour.
-/

namespace Helper

/-! ## Tokenizer -/

/-- Scan of `find_first_of`: the position of the first character of the remaining text that
belongs to `delims`, `pos` being the position of the head of the remaining text. -/
def findFrom (delims : List Char) : List Char → Nat → Option Nat
  | [], _ => none
  | c :: cs, pos => if c ∈ delims then some pos else findFrom delims cs (pos + 1)

/-- The call `s.find_first_of(delims, idx)`; `none` stands for `string::npos`. -/
def find_first_of (s delims : List Char) (idx : Nat) : Option Nat :=
  findFrom delims (s.drop idx) idx

/-- The call `s.substr(pos, n)` for `pos ≤ s.size()`. -/
def substr (s : List Char) (pos n : Nat) : List Char :=
  (s.drop pos).take n

/-- The `while (true)` loop of `split` (lines 38-44), one iteration per unit of fuel.
The result is the state `(idx, found, ret)` at the `break`; `none` means the fuel ran out
before the loop ended. -/
def splitLoop (s delims : List Char) :
    Nat → Nat → List (List Char) → Option (Nat × Option Nat × List (List Char))
  | 0, _, _ => none
  | fuel + 1, idx, ret =>
    match find_first_of s delims idx with
    | none => some (idx, none, ret)
    | some found =>
      if idx = found then splitLoop s delims fuel (idx + 1) ret
      else if idx > s.length then some (idx, some found, ret)
      else splitLoop s delims fuel (found + 1) (ret ++ [substr s idx (found - idx)])

/-- The statements after the loop (lines 45-47), from the state `(idx, found, ret)` at the
`break`. -/
def splitFinish (s : List Char) (st : Nat × Option Nat × List (List Char)) :
    List (List Char) :=
  if st.2.1 = none ∧ st.1 < s.length then st.2.2 ++ [s.drop st.1] else st.2.2

/-- The function `split` (lines 34-48) run with a bound on the number of loop iterations. -/
def splitFuel (fuel : Nat) (s delims : List Char) : Option (List (List Char)) :=
  (splitLoop s delims fuel 0 []).map (splitFinish s)

/-- The function `split`.  The loop ends within `s.size() + 1` iterations
(`splitFuel_eq_some`), so the default is never used. -/
def split (s delims : List Char) : List (List Char) :=
  (splitFuel (s.length + 1) s delims).getD []

/-! ### Reference descriptions of the tokenizer -/

/-- The maximal runs of characters outside `d`, read left to right; `cur` is the run being
read. -/
def tokensAux (d : List Char) : List Char → List Char → List (List Char)
  | cur, [] => if cur = [] then [] else [cur]
  | cur, c :: cs =>
    if c ∈ d then (if cur = [] then tokensAux d [] cs else cur :: tokensAux d [] cs)
    else tokensAux d (cur ++ [c]) cs

/-- The tokens written in order, the run `seps[i]` standing between token `i` and token
`i + 1`. -/
def interleave : List (List Char) → List (List Char) → List Char
  | [], _ => []
  | [t], _ => t
  | t :: t' :: ts, seps => t ++ seps.headD [] ++ interleave (t' :: ts) seps.tail

/-- The tokens joined with the single character `c` between consecutive tokens. -/
def joinWith (c : Char) (toks : List (List Char)) : List Char :=
  List.intercalate [c] toks

/-- Reading of "every maximal run of delimiter characters collapsed to the single character
`c`"; `inRun` tells that the previous character was a delimiter. -/
def collapseAux (d : List Char) (c : Char) : Bool → List Char → List Char
  | _, [] => []
  | inRun, x :: xs =>
    if x ∈ d then (if inRun then collapseAux d c true xs else c :: collapseAux d c true xs)
    else x :: collapseAux d c false xs

/-- The string `s` with every maximal run of characters of `d` replaced by `c`. -/
def collapseRuns (d : List Char) (c : Char) (s : List Char) : List Char :=
  collapseAux d c false s

/-- The string `s` without its leading and trailing characters of `d`. -/
def trimDelims (d : List Char) (s : List Char) : List Char :=
  (s.dropWhile (fun x => decide (x ∈ d))).rdropWhile (fun x => decide (x ∈ d))

/-! ## Outcomes and the platform -/

/-- How a call ends. -/
inductive Outcome (α : Type) where
  /-- Normal return. -/
  | ok (a : α)
  /-- The call reached `abort()`. -/
  | aborted
  /-- A C++ exception left the call (`std::length_error`). -/
  | thrown
  /-- Undefined behaviour: an index out of range, a signed overflow. -/
  | undefined
  deriving DecidableEq

/-- The platform and C library calls used by the code under study. -/
structure Platform where
  /-- Number returned by `backtrace(addr, nframe)`. -/
  backtrace : Int → Int
  /-- Result of `backtrace_symbols(addr, nframe)`: `none` for `NULL`, else the array of
  lines, indexed from 0. -/
  backtrace_symbols : Int → Option (Nat → List Char)
  /-- Result of `abi::__cxa_demangle(name, 0, 0, &status)`: `none` for `NULL`. -/
  cxa_demangle : List Char → Option (List Char)
  /-- Value of `strtol(str, NULL, base)`, a `long`. -/
  strtol : List Char → Nat → Int
  /-- Value of `strtoll(str, NULL, base)`, a `long long`. -/
  strtoll : List Char → Nat → Int
  /-- Text written by the `printf` conversion `%04d`. -/
  fmt_04d : Int → List Char
  /-- Text written by the `printf` conversion `%016llX`. -/
  fmt_016llX : Nat → List Char

/-- Largest value of `int`. -/
def INT_MAX : Int := 2147483647

/-- Conversion of an integer value to `int` (32 bits, wrapping). -/
def to_int (x : Int) : Int :=
  (x + 2 ^ 31) % 2 ^ 32 - 2 ^ 31

/-- Conversion of an integer value to `uint64_t`. -/
def to_uint64 (x : Int) : Nat :=
  (x % 2 ^ 64).toNat

/-! ## Backtrace -/

/-- The tuple `frame_info_type` (line 52); the fields are named after the comment on
lines 76-78. -/
structure frame_info_type where
  lineno : Int
  filename : List Char
  address : Nat
  funcname : List Char
  offset : Int
  deriving DecidableEq

/-- The tuple pushed on lines 93-101, built from the tokens `elems` of one line; a missing
token reads as the empty string here, and `make_frame` rules that case out. -/
def frame_of_elems (P : Platform) (elems : List (List Char)) : frame_info_type :=
  let funcname :=
    match P.cxa_demangle (elems.getD 3 []) with
    | some demangled => demangled
    | none => elems.getD 3 []
  { lineno := to_int (P.strtol (elems.getD 0 []) 10)
    filename := elems.getD 1 []
    address := to_uint64 (P.strtoll (elems.getD 2 []) 16)
    funcname := funcname
    offset := to_int (P.strtol (elems.getD 5 []) 10) }

/-- The record built from one line by the loop body. -/
def frame_of (P : Platform) (line : List Char) : frame_info_type :=
  frame_of_elems P (split line [' '])

/-- The loop body, lines 79-101: `none` when `elems[3]` or `elems[5]` is out of range
(undefined behaviour). -/
def make_frame (P : Platform) (line : List Char) : Option frame_info_type :=
  if (split line [' ']).length < 6 then none else some (frame_of P line)

/-- The loop of lines 74-104 over the remaining lines, with the counter `i` and the
records pushed so far. -/
def frameLoop (P : Platform) (size : Int) :
    List (List Char) → Int → List frame_info_type → Outcome (List frame_info_type)
  | [], _, info => Outcome.ok info
  | line :: rest, i, info =>
    match make_frame P line with
    | none => Outcome.undefined
    | some f =>
      if i + 1 ≥ size - 1 then Outcome.ok (info ++ [f])
      else frameLoop P size rest (i + 1) (info ++ [f])

/-- The data members of `Backtrace`. -/
structure Backtrace where
  info_ : List frame_info_type
  size_ : Int
  deriving DecidableEq

/-- The constructor `Backtrace(nframe)` (lines 57-106): the object built and the text
written to `stderr`. -/
def Backtrace.ctor (P : Platform) (nframe : Int) : Outcome (Backtrace × List (List Char)) :=
  if nframe < 0 then Outcome.undefined
  else
    let size := P.backtrace nframe
    if size = nframe then
      Outcome.ok ({ info_ := [], size_ := -1 }, ["Check the backtrace\x27s frame size\n".data])
    else
      match P.backtrace_symbols nframe with
      | none =>
        Outcome.ok ({ info_ := [], size_ := -1 },
          ["Cannot get the backtrace\x27s symbols\n".data])
      | some symbols =>
        let lines := (List.range nframe.toNat).map symbols
        match frameLoop P size lines 0 [] with
        | Outcome.ok info => Outcome.ok ({ info_ := info, size_ := size }, [])
        | Outcome.aborted => Outcome.aborted
        | Outcome.thrown => Outcome.thrown
        | Outcome.undefined => Outcome.undefined

/-- The member `get_frames` (line 107). -/
def Backtrace.get_frames (bt : Backtrace) : List frame_info_type := bt.info_

/-- The member `get_frame_size` (line 108). -/
def Backtrace.get_frame_size (bt : Backtrace) : Int := bt.size_

/-- The member `caller_frame_addr(up, func)` (lines 116-125).  `func` is `none` for a
null pointer and else holds the pointed-to string; the result is the returned address and
the string behind `func` after the call. -/
def Backtrace.caller_frame_addr (bt : Backtrace) (up : Int) (func : Option (List Char)) :
    Outcome (Nat × Option (List Char)) :=
  if up + 1 > INT_MAX then Outcome.undefined
  else if bt.size_ ≤ up + 1 then Outcome.aborted
  else if up < 0 then Outcome.undefined
  else
    match bt.info_[up.toNat]? with
    | none => Outcome.undefined
    | some f =>
      Outcome.ok (to_uint64 ((f.address : Int) - f.offset), func.map (fun _ => f.funcname))

/-- The member `caller_frame(up)` (lines 126-130). -/
def Backtrace.caller_frame (bt : Backtrace) (up : Int) : Outcome frame_info_type :=
  if up + 1 > INT_MAX then Outcome.undefined
  else if bt.size_ ≤ up + 1 then Outcome.aborted
  else if up < 0 then Outcome.undefined
  else
    match bt.info_[up.toNat]? with
    | none => Outcome.undefined
    | some f => Outcome.ok f

/-! ## Caller -/

/-- The data members of `Caller` (lines 156-162). -/
structure Caller where
  fname_ : List Char
  line_ : Int
  pfunc_ : List Char
  enter_ : List Char
  leave_ : List Char
  verbose_ : Bool
  nspace_ : Int
  deriving DecidableEq

/-- The construction `string space(n, '+')`: `std::length_error` for a negative `n`, which
converts to a size above `max_size()`. -/
def plus_string (n : Int) : Outcome (List Char) :=
  if n < 0 then Outcome.thrown else Outcome.ok (List.replicate n.toNat '+')

/-- The text written by `printf("%s%s/[%s:%04d]: %s\n", space, tag, fname, line, pfunc)`
(lines 146 and 152). -/
def trace_line (P : Platform) (space tag fname : List Char) (line : Int)
    (pfunc : List Char) : List Char :=
  space ++ tag ++ "/[".data ++ fname ++ ":".data ++ P.fmt_04d line ++ "]: ".data ++ pfunc
    ++ "\n".data

/-- The text written by `printf("%s%s%s 0x%016llX\n", space, "--- ", s, addr)`
(line 147). -/
def addr_line (P : Platform) (space s : List Char) (addr : Nat) : List Char :=
  space ++ "--- ".data ++ s ++ " 0x".data ++ P.fmt_016llX addr ++ "\n".data

/-- The constructor of `Caller` (lines 135-148): the object built and the `printf` calls
made, in order. -/
def Caller.ctor (P : Platform) (fname : List Char) (line : Int) (pfunc : List Char)
    (v : Bool) : Outcome (Caller × List (List Char)) :=
  match Backtrace.ctor P 100 with
  | Outcome.aborted => Outcome.aborted
  | Outcome.thrown => Outcome.thrown
  | Outcome.undefined => Outcome.undefined
  | Outcome.ok (bt, _) =>
    match bt.caller_frame_addr 4 (some []) with
    | Outcome.aborted => Outcome.aborted
    | Outcome.thrown => Outcome.thrown
    | Outcome.undefined => Outcome.undefined
    | Outcome.ok (addr, s) =>
      let sz := bt.get_frame_size - 4 - 3
      match plus_string sz with
      | Outcome.aborted => Outcome.aborted
      | Outcome.thrown => Outcome.thrown
      | Outcome.undefined => Outcome.undefined
      | Outcome.ok space =>
        Outcome.ok
          ({ fname_ := fname, line_ := line, pfunc_ := pfunc, enter_ := "*** Enter".data,
             leave_ := "*** Leave".data, verbose_ := v, nspace_ := sz },
           (if v then [trace_line P space "*** Enter".data fname line pfunc] else [])
             ++ [addr_line P space (s.getD []) addr])

/-- The destructor of `Caller` (lines 149-154): the `printf` calls made.  The string
`space` is built from the stored `nspace_`, which the constructor left non-negative. -/
def Caller.dtor (P : Platform) (c : Caller) : Outcome (List (List Char)) :=
  if c.verbose_ then
    match plus_string c.nspace_ with
    | Outcome.aborted => Outcome.aborted
    | Outcome.thrown => Outcome.thrown
    | Outcome.undefined => Outcome.undefined
    | Outcome.ok space =>
      Outcome.ok [trace_line P space c.leave_ c.fname_ c.line_ c.pfunc_]
  else Outcome.ok []

/-! ## A sample platform

Concrete stand-ins for the platform calls, on which the model runs: `strtol` and the
`printf` conversions follow the C library on an LP64 target, and the frame lines have the
layout of the sample line in the source (lines 76-78). -/

/-- The C function `isspace` in the "C" locale. -/
def isspace (c : Char) : Bool :=
  c.toNat = 32 || (9 ≤ c.toNat && c.toNat ≤ 13)

/-- Value of a digit character, for bases up to 36. -/
def digit_value (c : Char) : Option Nat :=
  if 48 ≤ c.toNat ∧ c.toNat ≤ 57 then some (c.toNat - 48)
  else if 97 ≤ c.toNat ∧ c.toNat ≤ 122 then some (c.toNat - 87)
  else if 65 ≤ c.toNat ∧ c.toNat ≤ 90 then some (c.toNat - 55)
  else none

/-- Value of the longest prefix of digits of the base. -/
def digits_value (base : Nat) : List Char → Nat → Nat
  | [], acc => acc
  | c :: cs, acc =>
    match digit_value c with
    | some v => if v < base then digits_value base cs (acc * base + v) else acc
    | none => acc

/-- The C function `strtol(str, NULL, base)` for base 10 or 16 with a 64-bit `long`: leading
white space, an optional sign, an optional `0x` for base 16, the digits, and the value
clamped to the range of `long`. -/
def strtol_model (str : List Char) (base : Nat) : Int :=
  let s1 := str.dropWhile isspace
  let s2 := if s1.head? = some '-' ∨ s1.head? = some '+' then s1.tail else s1
  let s3 :=
    if base = 16 ∧ (s2.take 2 = ['0', 'x'] ∨ s2.take 2 = ['0', 'X']) then s2.drop 2 else s2
  let v : Int := (digits_value base s3 0 : Nat)
  let signed : Int := if s1.head? = some '-' then -v else v
  max (-(2 ^ 63)) (min (2 ^ 63 - 1) signed)

/-- The digits left-padded with `0` to the width. -/
def zero_pad (width : Nat) (digits : List Char) : List Char :=
  List.replicate (width - digits.length) '0' ++ digits

/-- The `printf` conversion `%04d`. -/
def fmt_04d_model (n : Int) : List Char :=
  if n < 0 then '-' :: zero_pad 3 (Nat.toDigits 10 n.natAbs)
  else zero_pad 4 (Nat.toDigits 10 n.toNat)

/-- The `printf` conversion `%016llX`. -/
def fmt_016llX_model (n : Nat) : List Char :=
  zero_pad 16 ((Nat.toDigits 16 n).map Char.toUpper)

/-- A demangler that knows one mangled name, the one of the sample line in the source. -/
def demangle_model (name : List Char) : Option (List Char) :=
  if name = "_Z8hogehogev".data then some "hogehoge()".data else none

/-- Frame line number `k` of the sample platform. -/
def sample_line (k : Nat) : List Char :=
  Nat.toDigits 10 k ++ "   a.out   0x0000000104b5bf08 _Z8hogehogev + 24".data

/-- A platform that reports `size` captured frames and the given symbol table. -/
def sample_platform (size : Int) (symbols : Option (Nat → List Char)) : Platform :=
  { backtrace := fun _ => size
    backtrace_symbols := fun _ => symbols
    cxa_demangle := demangle_model
    strtol := strtol_model
    strtoll := strtol_model
    fmt_04d := fmt_04d_model
    fmt_016llX := fmt_016llX_model }

/-! ## The tokenizer loop -/

theorem findFrom_none (d : List Char) :
    ∀ (r : List Char) (p : Nat), (∀ x ∈ r, x ∉ d) → findFrom d r p = none
  | [], _, _ => rfl
  | c :: cs, p, h => by
    have hc : c ∉ d := h c (List.mem_cons_self _ _)
    have hcs : ∀ x ∈ cs, x ∉ d := fun x hx => h x (List.mem_cons_of_mem _ hx)
    simp [findFrom, hc, findFrom_none d cs (p + 1) hcs]

theorem findFrom_delim (d : List Char) (c : Char) (b : List Char) (hc : c ∈ d) :
    ∀ (t : List Char) (p : Nat), (∀ x ∈ t, x ∉ d) →
      findFrom d (t ++ c :: b) p = some (p + t.length)
  | [], p, _ => by simp [findFrom, hc]
  | y :: t, p, h => by
    have hy : y ∉ d := h y (List.mem_cons_self _ _)
    have ht : ∀ x ∈ t, x ∉ d := fun x hx => h x (List.mem_cons_of_mem _ hx)
    simp [findFrom, hy, findFrom_delim d c b hc t (p + 1) ht]
    omega

/-- A text either has no delimiter, or reads as a delimiter-free prefix, a delimiter and a
rest. -/
theorem delim_cases (d : List Char) :
    ∀ r : List Char, (∀ x ∈ r, x ∉ d) ∨
      ∃ t c b, r = t ++ c :: b ∧ (∀ x ∈ t, x ∉ d) ∧ c ∈ d
  | [] => Or.inl (by simp)
  | y :: r => by
    by_cases hy : y ∈ d
    · exact Or.inr ⟨[], y, r, rfl, by simp, hy⟩
    · rcases delim_cases d r with h | ⟨t, c, b, hr, ht, hc⟩
      · left
        intro x hx
        rcases List.mem_cons.1 hx with rfl | hx
        · exact hy
        · exact h x hx
      · right
        refine ⟨y :: t, c, b, by simp [hr], ?_, hc⟩
        intro x hx
        rcases List.mem_cons.1 hx with rfl | hx
        · exact hy
        · exact ht x hx

theorem tokensAux_nodelim (d : List Char) :
    ∀ (t cur rest : List Char), (∀ x ∈ t, x ∉ d) →
      tokensAux d cur (t ++ rest) = tokensAux d (cur ++ t) rest
  | [], cur, rest, _ => by simp
  | y :: t, cur, rest, h => by
    have hy : y ∉ d := h y (List.mem_cons_self _ _)
    have ht : ∀ x ∈ t, x ∉ d := fun x hx => h x (List.mem_cons_of_mem _ hx)
    simp [tokensAux, hy, tokensAux_nodelim d t (cur ++ [y]) rest ht]

theorem tokensAux_delim (d : List Char) (cur : List Char) (c : Char) (b : List Char)
    (hc : c ∈ d) (hcur : cur ≠ []) :
    tokensAux d cur (c :: b) = cur :: tokensAux d [] b := by
  simp [tokensAux, hc, hcur]

theorem tokensAux_skip (d : List Char) (c : Char) (b : List Char) (hc : c ∈ d) :
    tokensAux d [] (c :: b) = tokensAux d [] b := by
  simp [tokensAux, hc]

theorem tokensAux_runs (d : List Char) :
    ∀ (run rest : List Char), (∀ x ∈ run, x ∈ d) →
      tokensAux d [] (run ++ rest) = tokensAux d [] rest
  | [], _, _ => rfl
  | y :: run, rest, h => by
    have hy : y ∈ d := h y (List.mem_cons_self _ _)
    have hr : ∀ x ∈ run, x ∈ d := fun x hx => h x (List.mem_cons_of_mem _ hx)
    rw [List.cons_append, tokensAux_skip d y _ hy, tokensAux_runs d run rest hr]

/-- The loop of `split`, started at `idx` with enough fuel, ends, and the statements after
it leave `ret` followed by the maximal delimiter-free runs of the text from `idx` on. -/
theorem splitLoop_spec (s d : List Char) :
    ∀ (n idx : Nat) (ret : List (List Char)), (s.drop idx).length < n → idx ≤ s.length →
      ∀ fuel, (s.drop idx).length + 1 ≤ fuel →
        (splitLoop s d fuel idx ret).map (splitFinish s)
          = some (ret ++ tokensAux d [] (s.drop idx)) := by
  intro n
  induction n with
  | zero => intro idx ret h; omega
  | succ n ih =>
    intro idx ret hn hidx fuel hfuel
    obtain ⟨fuel, rfl⟩ : ∃ f, fuel = f + 1 := ⟨fuel - 1, by omega⟩
    rcases delim_cases d (s.drop idx) with hno | ⟨t, c, b, hr, ht, hc⟩
    · have hfind : find_first_of s d idx = none := findFrom_none d _ idx hno
      simp only [splitLoop, hfind, Option.map_some', splitFinish]
      by_cases hlt : idx < s.length
      · have hne : s.drop idx ≠ [] := by
          intro h0
          have := congrArg List.length h0
          simp at this
          omega
        have htok : tokensAux d [] (s.drop idx) = [s.drop idx] := by
          have := tokensAux_nodelim d (s.drop idx) [] [] hno
          simp only [List.append_nil, List.nil_append] at this
          rw [this]
          simp [tokensAux, hne]
        simp [hlt, htok]
      · have h0 : s.drop idx = [] := List.drop_eq_nil_of_le (by omega)
        simp [hlt, h0, tokensAux]
    · have hfind : find_first_of s d idx = some (idx + t.length) := by
        unfold find_first_of
        rw [hr]
        exact findFrom_delim d c b hc t idx ht
      have hlen : (s.drop idx).length = t.length + b.length + 1 := by
        rw [hr]; simp; omega
      have hlen2 : (s.drop idx).length = s.length - idx := List.length_drop _ _
      by_cases ht0 : t = []
      · subst ht0
        have hb : s.drop (idx + 1) = b := by
          have : s.drop (idx + 1) = (s.drop idx).drop 1 := by
            rw [List.drop_drop]
          rw [this, hr]; rfl
        have hstep : splitLoop s d (fuel + 1) idx ret = splitLoop s d fuel (idx + 1) ret := by
          simp [splitLoop, hfind]
        rw [hstep, ih (idx + 1) ret (by rw [hb]; simp at hlen; omega) (by simp at hlen; omega)
          fuel (by rw [hb]; simp at hlen; omega), hb, hr]
        simp [tokensAux_skip d c b hc]
      · have htpos : 0 < t.length := List.length_pos.2 ht0
        have hb : s.drop (idx + t.length + 1) = b := by
          have : s.drop (idx + t.length + 1) = (s.drop idx).drop (t.length + 1) := by
            rw [List.drop_drop]; congr 1
          rw [this, hr]
          simp
        have hsub : substr s idx (idx + t.length - idx) = t := by
          unfold substr
          rw [hr]
          simp
        have hstep : splitLoop s d (fuel + 1) idx ret
            = splitLoop s d fuel (idx + t.length + 1) (ret ++ [t]) := by
          have h1 : ¬ idx = idx + t.length := by omega
          have h2 : ¬ idx > s.length := by omega
          simp only [splitLoop, hfind, h1, h2, if_false, hsub]
        rw [hstep, ih (idx + t.length + 1) (ret ++ [t]) (by rw [hb]; omega) (by omega)
          fuel (by rw [hb]; omega), hb, hr]
        have := tokensAux_nodelim d t [] (c :: b) ht
        simp only [List.nil_append] at this
        rw [this, tokensAux_delim d t c b hc ht0]
        simp

/-- With `s.size() + 1` iterations or more, `split` returns, and returns the maximal
delimiter-free runs of `s`. -/
theorem splitFuel_eq_some (s d : List Char) (fuel : Nat) (h : s.length + 1 ≤ fuel) :
    splitFuel fuel s d = some (tokensAux d [] s) := by
  have := splitLoop_spec s d (s.length + 1) 0 [] (by simp) (by omega) fuel (by simpa using h)
  simpa [splitFuel] using this

theorem split_eq_tokensAux (s d : List Char) : split s d = tokensAux d [] s := by
  simp [split, splitFuel_eq_some s d (s.length + 1) (le_refl _)]

/-! ## Tokens of a separated string -/

theorem tokensAux_trailing (d : List Char) (cur : List Char) (hcur : cur ≠ []) :
    ∀ post : List Char, (∀ x ∈ post, x ∈ d) → tokensAux d cur post = [cur]
  | [], _ => by simp [tokensAux, hcur]
  | y :: post, h => by
    have hy : y ∈ d := h y (List.mem_cons_self _ _)
    have hp : ∀ x ∈ post, x ∈ d := fun x hx => h x (List.mem_cons_of_mem _ hx)
    have h0 := tokensAux_runs d post [] hp
    simp only [List.append_nil] at h0
    rw [tokensAux_delim d cur y post hy hcur, h0]
    simp [tokensAux]

theorem tokensAux_interleave (d : List Char) :
    ∀ (tokens seps : List (List Char)) (pre post : List Char),
      (∀ t ∈ tokens, t ≠ [] ∧ ∀ x ∈ t, x ∉ d) →
      (∀ r ∈ seps, r ≠ [] ∧ ∀ x ∈ r, x ∈ d) →
      tokens.length ≤ seps.length + 1 →
      (∀ x ∈ pre, x ∈ d) → (∀ x ∈ post, x ∈ d) →
      tokensAux d [] (pre ++ interleave tokens seps ++ post) = tokens
  | [], seps, pre, post, _, _, _, hpre, hpost => by
    have h0 := tokensAux_runs d post [] hpost
    simp only [List.append_nil] at h0
    simp only [interleave, List.append_nil]
    rw [tokensAux_runs d pre post hpre, h0]
    simp [tokensAux]
  | [t], seps, pre, post, htok, _, _, hpre, hpost => by
    obtain ⟨ht0, ht⟩ := htok t (List.mem_singleton_self t)
    simp only [interleave, List.append_assoc]
    rw [tokensAux_runs d pre _ hpre, tokensAux_nodelim d t [] post ht, List.nil_append,
      tokensAux_trailing d t ht0 post hpost]
  | t :: t' :: ts, [], _, _, _, _, hlen, _, _ => by simp at hlen
  | t :: t' :: ts, r :: rs, pre, post, htok, hsep, hlen, hpre, hpost => by
    obtain ⟨ht0, ht⟩ := htok t (List.mem_cons_self _ _)
    obtain ⟨hr0, hr⟩ := hsep r (List.mem_cons_self _ _)
    obtain ⟨c, r', rfl⟩ : ∃ c r', r = c :: r' := by
      cases r with
      | nil => exact absurd rfl hr0
      | cons c r' => exact ⟨c, r', rfl⟩
    have hc : c ∈ d := hr c (List.mem_cons_self _ _)
    have hr' : ∀ x ∈ r', x ∈ d := fun x hx => hr x (List.mem_cons_of_mem _ hx)
    have ih := tokensAux_interleave d (t' :: ts) rs r' post
      (fun u hu => htok u (List.mem_cons_of_mem _ hu))
      (fun u hu => hsep u (List.mem_cons_of_mem _ hu))
      (by simp at hlen ⊢; omega) hr' hpost
    simp only [interleave, List.headD_cons, List.tail_cons, List.append_assoc,
      List.cons_append]
    rw [tokensAux_runs d pre _ hpre, tokensAux_nodelim d t [] _ ht, List.nil_append,
      tokensAux_delim d t c _ hc ht0]
    simp only [List.append_assoc] at ih
    rw [ih]

theorem tokensAux_nonempty (d : List Char) :
    ∀ (s cur : List Char), ∀ t ∈ tokensAux d cur s, t ≠ []
  | [], cur, t, ht => by
    by_cases hcur : cur = []
    · simp [tokensAux, hcur] at ht
    · simp [tokensAux, hcur] at ht
      rw [ht]; exact hcur
  | c :: cs, cur, t, ht => by
    by_cases hc : c ∈ d
    · by_cases hcur : cur = []
      · simp only [tokensAux, hc, hcur, if_true] at ht
        exact tokensAux_nonempty d cs [] t ht
      · simp only [tokensAux, hc, hcur, if_true, if_false, List.mem_cons] at ht
        rcases ht with rfl | ht
        · exact hcur
        · exact tokensAux_nonempty d cs [] t ht
    · simp only [tokensAux, hc, if_false] at ht
      exact tokensAux_nonempty d cs _ t ht

/-! ## Joining the tokens -/

theorem tokensAux_dropWhile (d : List Char) :
    ∀ s : List Char,
      tokensAux d [] (s.dropWhile (fun x => decide (x ∈ d))) = tokensAux d [] s
  | [] => rfl
  | y :: s => by
    by_cases hy : y ∈ d
    · rw [List.dropWhile_cons_of_pos (by simpa using hy), tokensAux_skip d y s hy]
      exact tokensAux_dropWhile d s
    · rw [List.dropWhile_cons_of_neg (by simpa using hy)]

theorem tokensAux_eq_nil_of_delims (d : List Char) (s : List Char) (h : ∀ x ∈ s, x ∈ d) :
    tokensAux d [] s = [] := by
  have h0 := tokensAux_runs d s [] h
  simp only [List.append_nil] at h0
  rw [h0]; simp [tokensAux]

theorem rdropWhile_cons (p : Char → Bool) (x : Char) :
    ∀ xs : List Char, List.rdropWhile p (x :: xs)
      = if List.rdropWhile p xs = [] then (if p x then [] else [x])
        else x :: List.rdropWhile p xs := by
  intro xs
  induction xs using List.reverseRecOn with
  | nil => simp [List.rdropWhile_singleton]
  | append_singleton l a ih =>
    rw [← List.cons_append, List.rdropWhile_concat, List.rdropWhile_concat]
    by_cases ha : p a
    · simp only [ha, if_true]; exact ih
    · simp [ha]

theorem joinWith_nil (c : Char) : joinWith c [] = [] := rfl

theorem joinWith_singleton (c : Char) (a : List Char) : joinWith c [a] = a := by
  simp [joinWith, List.intercalate]

theorem joinWith_cons_cons (c : Char) (a b : List Char) (l : List (List Char)) :
    joinWith c (a :: b :: l) = a ++ c :: joinWith c (b :: l) := by
  simp [joinWith, List.intercalate]

theorem joinWith_tokensAux (d : List Char) (c : Char) :
    ∀ xs : List Char,
      (joinWith c (tokensAux d [] xs)
        = collapseAux d c true (List.rdropWhile (fun x => decide (x ∈ d)) xs)) ∧
      (∀ cur : List Char, cur ≠ [] → joinWith c (tokensAux d cur xs)
        = cur ++ collapseAux d c false (List.rdropWhile (fun x => decide (x ∈ d)) xs))
  | [] => by
    refine ⟨by simp [tokensAux, joinWith_nil, collapseAux], ?_⟩
    intro cur hcur
    simp [tokensAux, hcur, joinWith_singleton, collapseAux]
  | x :: xs => by
    obtain ⟨ihT, ihF⟩ := joinWith_tokensAux d c xs
    by_cases hx : x ∈ d
    · have hpx : (fun x => decide (x ∈ d)) x = true := by simpa using hx
      by_cases hnil : List.rdropWhile (fun x => decide (x ∈ d)) xs = []
      · have hall : ∀ y ∈ xs, y ∈ d := by
          have := List.rdropWhile_eq_nil_iff.1 hnil
          intro y hy; simpa using this y hy
        have htok : tokensAux d [] xs = [] := tokensAux_eq_nil_of_delims d xs hall
        rw [rdropWhile_cons, if_pos hnil, if_pos hpx]
        refine ⟨?_, ?_⟩
        · rw [tokensAux_skip d x xs hx, htok]; simp [joinWith_nil, collapseAux]
        · intro cur hcur
          rw [tokensAux_delim d cur x xs hx hcur, htok]
          simp [joinWith_singleton, collapseAux]
      · have htok : tokensAux d [] xs ≠ [] := by
          intro h0
          rw [h0] at ihT
          obtain ⟨y, ys, hys⟩ : ∃ y ys, List.rdropWhile (fun x => decide (x ∈ d)) xs
              = ys ++ [y] := by
            rcases List.eq_nil_or_concat (List.rdropWhile (fun x => decide (x ∈ d)) xs)
              with h | ⟨ys, y, h⟩
            · exact absurd h hnil
            · exact ⟨y, ys, by simpa using h⟩
          have hlast := List.rdropWhile_last_not (fun x => decide (x ∈ d)) xs hnil
          simp only [hys, List.getLast_append_singleton] at hlast
          have hy : y ∉ d := by simpa using hlast
          have hmem : y ∈ collapseAux d c true (ys ++ [y]) := by
            clear hys hlast ihT
            generalize true = b
            induction ys generalizing b with
            | nil => simp [collapseAux, hy]
            | cons z zs ih =>
              by_cases hz : z ∈ d
              · cases b
                · simp only [List.cons_append, collapseAux, hz, if_true]
                  exact List.mem_cons_of_mem _ (ih true)
                · simp only [List.cons_append, collapseAux, hz, if_true]
                  exact ih true
              · simp only [List.cons_append, collapseAux, hz, if_false]
                exact List.mem_cons_of_mem _ (ih false)
          rw [hys] at ihT
          rw [← ihT] at hmem
          simp [joinWith_nil] at hmem
        rw [rdropWhile_cons, if_neg hnil]
        refine ⟨?_, ?_⟩
        · rw [tokensAux_skip d x xs hx, ihT]
          simp [collapseAux, hx]
        · intro cur hcur
          rw [tokensAux_delim d cur x xs hx hcur]
          obtain ⟨b, l, hbl⟩ : ∃ b l, tokensAux d [] xs = b :: l := by
            cases h : tokensAux d [] xs with
            | nil => exact absurd h htok
            | cons b l => exact ⟨b, l, rfl⟩
          rw [hbl, joinWith_cons_cons, ← hbl, ihT]
          simp [collapseAux, hx]
    · have hpx : ¬ (fun x => decide (x ∈ d)) x = true := by simpa using hx
      have hrd : List.rdropWhile (fun x => decide (x ∈ d)) (x :: xs)
          = x :: List.rdropWhile (fun x => decide (x ∈ d)) xs := by
        rw [rdropWhile_cons]
        by_cases hnil : List.rdropWhile (fun x => decide (x ∈ d)) xs = []
        · rw [if_pos hnil, if_neg hpx, hnil]
        · rw [if_neg hnil]
      rw [hrd]
      refine ⟨?_, ?_⟩
      · have h1 : tokensAux d [] (x :: xs) = tokensAux d [x] xs := by
          simp [tokensAux, hx]
        rw [h1, ihF [x] (by simp)]
        simp [collapseAux, hx]
      · intro cur hcur
        have h1 : tokensAux d cur (x :: xs) = tokensAux d (cur ++ [x]) xs := by
          simp [tokensAux, hx]
        rw [h1, ihF (cur ++ [x]) (by simp)]
        simp [collapseAux, hx]

/-- Joining the maximal delimiter-free runs of `s` with `c` gives `s`, trimmed of its
leading and trailing delimiters, with every run of delimiters collapsed to `c`. -/
theorem joinWith_tokens_eq (d : List Char) (c : Char) (s : List Char) :
    joinWith c (tokensAux d [] s) = collapseRuns d c (trimDelims d s) := by
  rw [← tokensAux_dropWhile d s]
  unfold trimDelims collapseRuns
  cases hw : s.dropWhile (fun x => decide (x ∈ d)) with
  | nil => simp [tokensAux, joinWith_nil, collapseAux]
  | cons x v =>
    have hx : x ∉ d := by
      have h := List.head_dropWhile_not (fun x => decide (x ∈ d)) s (by rw [hw]; simp)
      simp only [hw, List.head_cons] at h
      simpa using h
    have hpx : ¬ (fun x => decide (x ∈ d)) x = true := by simpa using hx
    have hrd : List.rdropWhile (fun x => decide (x ∈ d)) (x :: v)
        = x :: List.rdropWhile (fun x => decide (x ∈ d)) v := by
      rw [rdropWhile_cons]
      by_cases hnil : List.rdropWhile (fun x => decide (x ∈ d)) v = []
      · rw [if_pos hnil, if_neg hpx, hnil]
      · rw [if_neg hnil]
    have h1 : tokensAux d [] (x :: v) = tokensAux d [x] v := by
      simp [tokensAux, hx]
    rw [hrd, h1, (joinWith_tokensAux d c v).2 [x] (by simp)]
    simp [collapseAux, hx]

/-! ## The frame loop and the constructor of `Backtrace` -/

theorem make_frame_of_six (P : Platform) (line : List Char)
    (h : 6 ≤ (split line [' ']).length) : make_frame P line = some (frame_of P line) := by
  have : ¬ (split line [' ']).length < 6 := by omega
  simp [make_frame, this]

/-- The loop pushes one record for each of the next `max 1 (size - 1 - i)` lines. -/
theorem frameLoop_take (P : Platform) (size : Int) :
    ∀ (lines : List (List Char)) (i : Int) (info : List frame_info_type),
      max 1 (size - 1 - i).toNat ≤ lines.length →
      (∀ line ∈ lines.take (max 1 (size - 1 - i).toNat), 6 ≤ (split line [' ']).length) →
      frameLoop P size lines i info
        = Outcome.ok (info ++ (lines.take (max 1 (size - 1 - i).toNat)).map (frame_of P))
  | [], i, info, hlen, _ => by simp at hlen
  | line :: rest, i, info, hlen, h6 => by
    have hpos : 0 < max 1 (size - 1 - i).toNat := by omega
    have hline : 6 ≤ (split line [' ']).length := by
      apply h6
      rw [List.take_cons hpos]
      exact List.mem_cons_self _ _
    by_cases hbr : i + 1 ≥ size - 1
    · have hm : max 1 (size - 1 - i).toNat = 1 := by omega
      simp [frameLoop, make_frame_of_six P line hline, hbr, hm]
    · have hm : max 1 (size - 1 - i).toNat = max 1 (size - 1 - (i + 1)).toNat + 1 := by omega
      rw [hm] at hlen h6 ⊢
      have ih := frameLoop_take P size rest (i + 1) (info ++ [frame_of P line])
        (by simpa using hlen)
        (fun l hl => h6 l (by rw [List.take_succ_cons]; exact List.mem_cons_of_mem _ hl))
      simp only [frameLoop, make_frame_of_six P line hline, hbr, if_false, ih,
        List.take_succ_cons, List.map_cons, List.append_assoc, List.singleton_append]

/-- A capture smaller than the requested depth, with a symbol table whose processed lines
have six fields each, builds `max 1 (size - 1)` records, one per line in order, and stores
the captured size. -/
theorem ctor_success (P : Platform) (nframe : Int) (symbols : Nat → List Char)
    (h1 : 1 ≤ nframe) (hlt : P.backtrace nframe < nframe)
    (hsym : P.backtrace_symbols nframe = some symbols)
    (hlines : ∀ k : Nat, k < max 1 (P.backtrace nframe - 1).toNat →
      6 ≤ (split (symbols k) [' ']).length) :
    Backtrace.ctor P nframe
      = Outcome.ok
          ({ info_ := (List.range (max 1 (P.backtrace nframe - 1).toNat)).map
                (fun k => frame_of P (symbols k)),
             size_ := P.backtrace nframe }, []) := by
  have hm : max 1 (P.backtrace nframe - 1).toNat ≤ nframe.toNat := by omega
  have htake : ((List.range nframe.toNat).map symbols).take
        (max 1 (P.backtrace nframe - 1 - 0).toNat)
      = (List.range (max 1 (P.backtrace nframe - 1).toNat)).map symbols := by
    rw [← List.map_take, List.take_range, sub_zero, Nat.min_eq_left hm]
  have hloop := frameLoop_take P (P.backtrace nframe) ((List.range nframe.toNat).map symbols)
    0 [] (by simpa using hm)
    (by
      rw [htake]
      intro line hl
      obtain ⟨k, hk, rfl⟩ := List.mem_map.1 hl
      exact hlines k (List.mem_range.1 hk))
  rw [htake] at hloop
  have hn0 : ¬ nframe < 0 := by omega
  have hne : ¬ P.backtrace nframe = nframe := by omega
  simp only [Backtrace.ctor, hn0, hne, if_false, hsym, hloop, List.nil_append, List.map_map]
  rfl

/-! ## The tokenizer -/

/-- C1: for every delimiter set `d`, every list of non-empty tokens free of characters of
`d`, and every string written as those tokens in order with a non-empty run of characters
of `d` between consecutive tokens (`seps`), a run `pre` of characters of `d` before the
first token and a run `post` after the last, `split` returns exactly the tokens, in order:
the loop ends within `size + 1` iterations, and no returned token is empty. -/
theorem split_separated_tokens (d pre post : List Char) (tokens seps : List (List Char))
    (htok : ∀ t ∈ tokens, t ≠ [] ∧ ∀ x ∈ t, x ∉ d)
    (hsep : ∀ r ∈ seps, r ≠ [] ∧ ∀ x ∈ r, x ∈ d)
    (hlen : tokens.length ≤ seps.length + 1)
    (hpre : ∀ x ∈ pre, x ∈ d) (hpost : ∀ x ∈ post, x ∈ d) :
    split (pre ++ interleave tokens seps ++ post) d = tokens ∧
    (∀ fuel, (pre ++ interleave tokens seps ++ post).length + 1 ≤ fuel →
      splitFuel fuel (pre ++ interleave tokens seps ++ post) d = some tokens) ∧
    ∀ t ∈ split (pre ++ interleave tokens seps ++ post) d, t ≠ [] := by
  have hspec := tokensAux_interleave d tokens seps pre post htok hsep hlen hpre hpost
  have hsplit : split (pre ++ interleave tokens seps ++ post) d = tokens := by
    rw [split_eq_tokensAux, hspec]
  refine ⟨hsplit, ?_, ?_⟩
  · intro fuel hfuel
    rw [splitFuel_eq_some _ d fuel hfuel, hspec]
  · intro t ht
    rw [hsplit] at ht
    exact (htok t ht).1

/-- C1, on the frame line of the scenario: six tokens. -/
theorem split_separated_tokens_witness :
    split "1   libfoo.so   0x00007fff988fe5c9 start + 1".data " ".data
      = ["1".data, "libfoo.so".data, "0x00007fff988fe5c9".data, "start".data, "+".data,
          "1".data] :=
  (split_separated_tokens " ".data [] []
    ["1".data, "libfoo.so".data, "0x00007fff988fe5c9".data, "start".data, "+".data, "1".data]
    ["   ".data, "   ".data, " ".data, " ".data, " ".data]
    (by decide) (by decide) (by decide) (by decide) (by decide)).1

/-- C5, as stated, fails on a string that starts with a delimiter: the tokens of `" a"`
join to `"a"`, while `" a"` with its runs of blanks collapsed is still `" a"`. -/
theorem split_join_leading_delimiter :
    ' ' ∈ " ".data ∧
    joinWith ' ' (split " a".data " ".data) = "a".data ∧
    collapseRuns " ".data ' ' " a".data = " a".data ∧
    joinWith ' ' (split " a".data " ".data) ≠ collapseRuns " ".data ' ' " a".data := by
  decide

/-- C5, amended: for every string `s`, delimiter set `d` and character `c` of `d`, no token
of `split s d` is empty, and the tokens joined with `c` give `s` without its leading and
trailing delimiters and with every remaining maximal run of delimiters collapsed to `c`. -/
theorem split_join_collapse (s d : List Char) (c : Char) (hc : c ∈ d) :
    (∀ t ∈ split s d, t ≠ []) ∧
    joinWith c (split s d) = collapseRuns d c (trimDelims d s) := by
  have _ := hc
  rw [split_eq_tokensAux]
  exact ⟨tokensAux_nonempty d s [], joinWith_tokens_eq d c s⟩

/-- C5, amended, on a line with blanks and commas around and between three fields. -/
theorem split_join_collapse_witness :
    (∀ t ∈ split " , a  b,,c ,".data " ,".data, t ≠ []) ∧
    joinWith ',' (split " , a  b,,c ,".data " ,".data)
      = collapseRuns " ,".data ',' (trimDelims " ,".data " , a  b,,c ,".data) :=
  split_join_collapse " , a  b,,c ,".data " ,".data ',' (by decide)

/-! ## Backtrace -/

/-- A truncated capture or a failed symbol lookup leaves the members as initialised:
no record and the size `-1`. -/
theorem ctor_failure (P : Platform) (nframe : Int) (hn : 0 ≤ nframe)
    (h : P.backtrace nframe = nframe ∨ P.backtrace_symbols nframe = none) :
    ∃ log, Backtrace.ctor P nframe = Outcome.ok ({ info_ := [], size_ := -1 }, log) := by
  have hn0 : ¬ nframe < 0 := by omega
  by_cases hsize : P.backtrace nframe = nframe
  · exact ⟨_, by simp only [Backtrace.ctor, hn0, hsize, if_true, if_false]; rfl⟩
  · rcases h with h | h
    · exact absurd h hsize
    · exact ⟨_, by simp only [Backtrace.ctor, hn0, hsize, h, if_false]; rfl⟩

/-- C2: for every requested depth `nframe ≥ 1`, when `backtrace` returns exactly `nframe`
or `backtrace_symbols` returns `NULL`, the constructor returns an object whose
`get_frame_size()` is `-1` and whose `get_frames()` is empty. -/
theorem ctor_failure_is_empty (P : Platform) (nframe : Int) (hn : 1 ≤ nframe)
    (h : P.backtrace nframe = nframe ∨ P.backtrace_symbols nframe = none) :
    ∃ bt log, Backtrace.ctor P nframe = Outcome.ok (bt, log) ∧
      bt.get_frame_size = -1 ∧ bt.get_frames = [] := by
  obtain ⟨log, hctor⟩ := ctor_failure P nframe (by omega) h
  exact ⟨_, log, hctor, rfl, rfl⟩

/-- C2, on a capture that fills the 100 requested slots. -/
theorem ctor_failure_is_empty_witness :
    ∃ bt log, Backtrace.ctor (sample_platform 100 (some sample_line)) 100
        = Outcome.ok (bt, log) ∧
      bt.get_frame_size = -1 ∧ bt.get_frames = [] :=
  ctor_failure_is_empty (sample_platform 100 (some sample_line)) 100 (by decide)
    (Or.inl rfl)

/-- C3: for a capture smaller than the requested depth whose processed lines tokenize into
at least six fields, and every `up` with `0 ≤ up` and `up + 1 < get_frame_size()`, the
constructor succeeds, the record at position `up` exists in `get_frames()`, and
`caller_frame_addr(up, &s)` returns that record's address minus its offset modulo `2 ^ 64`
and stores that record's symbol in `s`. -/
theorem caller_frame_addr_returns (P : Platform) (nframe up : Int)
    (symbols : Nat → List Char) (s0 : List Char)
    (hn : nframe ≤ INT_MAX)
    (hlt : P.backtrace nframe < nframe)
    (hsym : P.backtrace_symbols nframe = some symbols)
    (hlines : ∀ k : Nat, k < (P.backtrace nframe - 1).toNat →
      6 ≤ (split (symbols k) [' ']).length)
    (hup0 : 0 ≤ up) (hup : up + 1 < P.backtrace nframe) :
    ∃ bt log f r,
      Backtrace.ctor P nframe = Outcome.ok (bt, log) ∧
      bt.get_frame_size = P.backtrace nframe ∧
      bt.get_frames[up.toNat]? = some f ∧
      f = frame_of P (symbols up.toNat) ∧
      bt.caller_frame_addr up (some s0) = Outcome.ok (r, some f.funcname) ∧
      (r : Int) = ((f.address : Int) - f.offset) % 2 ^ 64 := by
  have hmax : max 1 (P.backtrace nframe - 1).toNat = (P.backtrace nframe - 1).toNat := by
    omega
  have hctor := ctor_success P nframe symbols (by omega) hlt hsym
    (by rw [hmax]; exact hlines)
  rw [hmax] at hctor
  have hidx : up.toNat < (P.backtrace nframe - 1).toNat := by omega
  have hget : ((List.range (P.backtrace nframe - 1).toNat).map
      (fun k => frame_of P (symbols k)))[up.toNat]? = some (frame_of P (symbols up.toNat)) := by
    rw [List.getElem?_map, List.getElem?_range hidx]
    rfl
  refine ⟨_, _, frame_of P (symbols up.toNat),
    to_uint64 (((frame_of P (symbols up.toNat)).address : Int)
      - (frame_of P (symbols up.toNat)).offset), hctor, rfl, hget, rfl, ?_, ?_⟩
  · have h1 : ¬ up + 1 > INT_MAX := by unfold INT_MAX at hn ⊢; omega
    have h2 : ¬ P.backtrace nframe ≤ up + 1 := by omega
    have h3 : ¬ up < 0 := by omega
    simp only [Backtrace.caller_frame_addr, h1, h2, h3, if_false, hget, Option.map_some']
  · unfold to_uint64
    rw [Int.toNat_of_nonneg (Int.emod_nonneg _ (by norm_num))]

/-- C3, on a nine-frame capture, for the frame four levels up. -/
theorem caller_frame_addr_returns_witness :
    ∃ bt log f r,
      Backtrace.ctor (sample_platform 9 (some sample_line)) 100 = Outcome.ok (bt, log) ∧
      bt.get_frame_size = (sample_platform 9 (some sample_line)).backtrace 100 ∧
      bt.get_frames[(4 : Int).toNat]? = some f ∧
      f = frame_of (sample_platform 9 (some sample_line)) (sample_line (4 : Int).toNat) ∧
      bt.caller_frame_addr 4 (some []) = Outcome.ok (r, some f.funcname) ∧
      (r : Int) = ((f.address : Int) - f.offset) % 2 ^ 64 :=
  caller_frame_addr_returns (sample_platform 9 (some sample_line)) 100 4 sample_line []
    (by decide) (by decide) rfl (by decide) (by decide) (by decide)

/-- Below `INT_MAX` the guard of `caller_frame_addr` and of `caller_frame` aborts for every
`up` with `get_frame_size() ≤ up + 1`. -/
theorem caller_frame_guard (bt : Backtrace) (up : Int) (func : Option (List Char))
    (hmax : up < INT_MAX) (h : bt.get_frame_size ≤ up + 1) :
    bt.caller_frame_addr up func = Outcome.aborted ∧
    bt.caller_frame up = Outcome.aborted := by
  have h1 : ¬ up + 1 > INT_MAX := by omega
  have h2 : bt.size_ ≤ up + 1 := h
  simp [Backtrace.caller_frame_addr, Backtrace.caller_frame, h1, h2]

/-- C4, at `up = INT_MAX` on a failed `Backtrace` (size `-1`): `up + 1` overflows `int`, so
the guard `size_ <= up+1` does not decide the call, and neither member reaches
`abort()`. -/
theorem caller_frame_int_max :
    (2147483647 : Int) + 1 ≥ Backtrace.get_frame_size { info_ := [], size_ := -1 } ∧
    Backtrace.caller_frame_addr { info_ := [], size_ := -1 } 2147483647 none
      = Outcome.undefined ∧
    Backtrace.caller_frame { info_ := [], size_ := -1 } 2147483647 = Outcome.undefined := by
  decide

/-- C10, on a capture of a single frame (`n = 1`, requested depth 100): the loop tests
`i >= size - 1` only after it has pushed a record, so `get_frames()` holds one record where
`n - 1 = 0` are expected; `get_frame_size()` is 1. -/
theorem ctor_single_frame :
    Backtrace.ctor (sample_platform 1 (some sample_line)) 100
      = Outcome.ok
          ({ info_ := [{ lineno := 0, filename := "a.out".data, address := 4373987080,
                         funcname := "hogehoge()".data, offset := 24 }],
             size_ := 1 }, []) := by
  decide

/-! ## Caller -/

set_option maxRecDepth 100000

/-- C6, as stated, fails: on a truncated snapshot (the capture fills the 100 slots) the
constructor of `Caller` ends in `abort()`. -/
theorem caller_ctor_truncated_aborts :
    (sample_platform 100 (some sample_line)).backtrace 100 = 100 ∧
    Caller.ctor (sample_platform 100 (some sample_line)) "helper.cpp".data 172
      "void func()".data true = Outcome.aborted := by
  decide

/-- C6, amended: for every failure of the snapshot taken inside the constructor of `Caller`
(the captured count equals the depth 100, or the symbol lookup returns `NULL`), the
constructor ends in `abort()`: `caller_frame_addr(4, &s)` finds the size `-1` and no trace
line is printed. -/
theorem caller_ctor_failed_snapshot_aborts (P : Platform) (fname pfunc : List Char)
    (line : Int) (v : Bool)
    (h : P.backtrace 100 = 100 ∨ P.backtrace_symbols 100 = none) :
    Caller.ctor P fname line pfunc v = Outcome.aborted := by
  obtain ⟨log, hctor⟩ := ctor_failure P 100 (by decide) h
  simp only [Caller.ctor, hctor]
  rfl

/-- C6, amended, on a platform whose symbol lookup fails. -/
theorem caller_ctor_failed_snapshot_aborts_witness :
    Caller.ctor (sample_platform 9 none) "helper.cpp".data 172 "void func()".data false
      = Outcome.aborted :=
  caller_ctor_failed_snapshot_aborts (sample_platform 9 none) "helper.cpp".data
    "void func()".data 172 false (Or.inr rfl)

theorem plus_string_ok (n : Int) (space : List Char)
    (h : plus_string n = Outcome.ok space) :
    0 ≤ n ∧ space = List.replicate n.toNat '+' := by
  unfold plus_string at h
  by_cases hn : n < 0
  · simp [hn] at h
  · simp only [hn, if_false, Outcome.ok.injEq] at h
    exact ⟨by omega, h.symm⟩

/-- C7: for every verbose `Caller` whose construction completes, construction followed by
destruction makes three `printf` calls: one `*** Enter` line, the `--- ` line with the
resolved symbol and address, and one `*** Leave` line.  The `Enter` and `Leave` lines have
the same `n` leading `+`, `n` being the depth `nspace_` stored at construction, and the
same file, line and function label. -/
theorem caller_enter_leave (P : Platform) (fname pfunc : List Char) (line : Int)
    (c : Caller) (out : List (List Char))
    (h : Caller.ctor P fname line pfunc true = Outcome.ok (c, out)) :
    ∃ (n : Nat) (s : List Char) (addr : Nat),
      c.nspace_ = n ∧
      out = [List.replicate n '+' ++ "*** Enter".data ++ ("/[".data ++ fname ++ ":".data
                ++ P.fmt_04d line ++ "]: ".data ++ pfunc ++ "\n".data),
             List.replicate n '+' ++ "--- ".data ++ s ++ " 0x".data ++ P.fmt_016llX addr
                ++ "\n".data] ∧
      Caller.dtor P c
        = Outcome.ok [List.replicate n '+' ++ "*** Leave".data ++ ("/[".data ++ fname
            ++ ":".data ++ P.fmt_04d line ++ "]: ".data ++ pfunc ++ "\n".data)] := by
  unfold Caller.ctor at h
  cases hbt : Backtrace.ctor P 100 with
  | aborted => simp [hbt] at h
  | thrown => simp [hbt] at h
  | undefined => simp [hbt] at h
  | ok r =>
    obtain ⟨bt, log⟩ := r
    simp only [hbt] at h
    cases hcf : bt.caller_frame_addr 4 (some []) with
    | aborted => simp [hcf] at h
    | thrown => simp [hcf] at h
    | undefined => simp [hcf] at h
    | ok q =>
      obtain ⟨addr, s⟩ := q
      simp only [hcf] at h
      cases hps : plus_string (bt.get_frame_size - 4 - 3) with
      | aborted => simp [hps] at h
      | thrown => simp [hps] at h
      | undefined => simp [hps] at h
      | ok space =>
        simp only [hps, if_true, Outcome.ok.injEq, Prod.mk.injEq] at h
        obtain ⟨hc, hout⟩ := h
        obtain ⟨hn0, hspace⟩ := plus_string_ok _ _ hps
        refine ⟨(bt.get_frame_size - 4 - 3).toNat, s.getD [], addr, ?_, ?_, ?_⟩
        · rw [← hc]
          exact (Int.toNat_of_nonneg hn0).symm
        · rw [← hout, hspace]
          simp [trace_line, addr_line]
        · rw [← hc]
          simp only [Caller.dtor, if_true, hps, hspace]
          simp [trace_line]

/-- C7, on a nine-frame capture: the two lines start with `++`. -/
theorem caller_enter_leave_witness :
    ∃ (n : Nat) (s : List Char) (addr : Nat),
      (2 : Int) = n ∧
      ["++*** Enter/[helper.cpp:0172]: void func()\n".data,
        "++--- hogehoge() 0x0000000104B5BEF0\n".data]
        = [List.replicate n '+' ++ "*** Enter".data ++ ("/[".data ++ "helper.cpp".data
                ++ ":".data ++ (sample_platform 9 (some sample_line)).fmt_04d 172
                ++ "]: ".data ++ "void func()".data ++ "\n".data),
             List.replicate n '+' ++ "--- ".data ++ s ++ " 0x".data
                ++ (sample_platform 9 (some sample_line)).fmt_016llX addr ++ "\n".data] ∧
      Caller.dtor (sample_platform 9 (some sample_line))
          { fname_ := "helper.cpp".data, line_ := 172, pfunc_ := "void func()".data,
            enter_ := "*** Enter".data, leave_ := "*** Leave".data, verbose_ := true,
            nspace_ := 2 }
        = Outcome.ok [List.replicate n '+' ++ "*** Leave".data ++ ("/[".data
            ++ "helper.cpp".data ++ ":".data
            ++ (sample_platform 9 (some sample_line)).fmt_04d 172 ++ "]: ".data
            ++ "void func()".data ++ "\n".data)] :=
  caller_enter_leave (sample_platform 9 (some sample_line)) "helper.cpp".data
    "void func()".data 172
    { fname_ := "helper.cpp".data, line_ := 172, pfunc_ := "void func()".data,
      enter_ := "*** Enter".data, leave_ := "*** Leave".data, verbose_ := true,
      nspace_ := 2 }
    ["++*** Enter/[helper.cpp:0172]: void func()\n".data,
      "++--- hogehoge() 0x0000000104B5BEF0\n".data]
    (by decide)

end Helper
